import Mathlib

/-!
Verification of the exiCPP bit-stream layer, header codec and decoder string
tables against their sources.  The bit-stream writer is embedded from
`src/vendored/exip/src/streamIO/src/streamWrite.c`; the string-table data model
is embedded from `src/include/exi/Decode/BodyDecoder.hpp`; parts of the
repository that are referenced but whose definitions are not in the source tree
(the bit reader, `ioUtil.c`, `CompactID.hpp`, the header decoder) are modelled
from the specification and marked as such.
-/

namespace exi

/-- Error codes from `src/vendored/exip/include/exip/errorHandle.h`
(`enum errorCode`), restricted to the constructors exercised by the claims. -/
inductive errorCode where
  | BufferEndReached
  | InvalidExiHeader
  | UnexpectedError
deriving DecidableEq, Repr

/-- The EXI stream state, from exip's `EXIStream` (`buffer.buf`,
`buffer.bufLen`, `context.bufferIndx`, `context.bitPointer`,
`buffer.ioStrm.readWriteToStream`).  The byte buffer is modelled as a function
from index to byte value together with an explicit length; the optional flush
sink receives the buffer and its length and returns the number of bytes it
accepted, mirroring `readWriteToStream(buf, bufLen, stream)`. -/
structure EXIStream where
  buf : Nat → Nat
  bufLen : Nat
  bufferIndx : Nat
  bitPointer : Nat
  sink : Option ((Nat → Nat) → Nat → Nat)

/-- Absolute bit position of the stream head. -/
def totalPos (s : EXIStream) : Nat := 8 * s.bufferIndx + s.bitPointer

/-- Bit `j` of the byte buffer, MSB-first within each byte: bit 0 is the most
significant bit of byte 0. -/
def streamBit (buf : Nat → Nat) (j : Nat) : Bool :=
  (buf (j / 8)).testBit (7 - j % 8)

/-- Modelled from the spec: `moveBitPointer` from exip's `ioUtil.c` (the file is
not under src/).  It advances the head by `n` bit positions, keeping the
invariant `bitPointer < 8` of the data model ("bit offset within the current
byte (0-7)"). -/
def moveBitPointer (s : EXIStream) (n : Nat) : EXIStream :=
  { s with bufferIndx := s.bufferIndx + (s.bitPointer + n) / 8,
           bitPointer := (s.bitPointer + n) % 8 }

/-- `BIT_MASK[i]`, declared `extern` in `streamWrite.c` and defined in exip's
`streamRead.c` (not under src/).  Modelled from the spec's ordering rules: the
mask of the `i` low bits of a byte. -/
def BIT_MASK (i : Nat) : Nat := 2 ^ i - 1

/-- Modelled from the spec: `writeEncodedEXIChunk` (not under src/), per section
4.1: "if a flush sink is configured, the writer flushes the entire buffer and
continues.  Partial flushes (shorter write than requested) fail as
`BufferEndReached`."  On success the write position is reset to the start. -/
def writeEncodedEXIChunk (s : EXIStream) : Except errorCode EXIStream :=
  match s.sink with
  | none => .error .BufferEndReached
  | some f =>
    if f s.buf s.bufLen < s.bufLen then .error .BufferEndReached
    else .ok { s with bufferIndx := 0, bitPointer := 0 }

/-- The `while` loop of `writeNBits` from
`src/vendored/exip/src/streamIO/src/streamWrite.c`, with `w` the number of bits
written so far (`numBitsWrite`).  `fuel` bounds the iteration count of the C
`while`; any `fuel ≥ nbits - w` is enough since every iteration writes at least
one bit.  `buf[i] & ~BIT_MASK[8 - bitPointer]` on a byte equals
`buf[i] &&& (255 - BIT_MASK (8 - bitPointer))`. -/
def writeNBitsAux : Nat → EXIStream → Nat → Nat → Nat → EXIStream
  | 0, s, _, _, _ => s
  | fuel + 1, s, nbits, val, w =>
    if w < nbits then
      let bits_in_byte := if nbits - w ≤ 8 - s.bitPointer then nbits - w else 8 - s.bitPointer
      let tmp := ((val >>> (nbits - w - bits_in_byte)) &&& BIT_MASK bits_in_byte)
                   <<< (8 - s.bitPointer - bits_in_byte)
      let cleared := (s.buf s.bufferIndx) &&& (255 - BIT_MASK (8 - s.bitPointer))
      let s1 : EXIStream :=
        { s with buf := fun i => if i = s.bufferIndx then cleared ||| tmp else s.buf i }
      writeNBitsAux fuel (moveBitPointer s1 bits_in_byte) nbits val (w + bits_in_byte)
    else s

/-- `writeNBits` from `src/vendored/exip/src/streamIO/src/streamWrite.c`. -/
def writeNBits (s : EXIStream) (nbits : Nat) (val : Nat) : Except errorCode EXIStream :=
  let numBytesToBeWritten := nbits / 8 + (if 8 - s.bitPointer < nbits % 8 then 1 else 0)
  if s.bufLen ≤ s.bufferIndx + numBytesToBeWritten then
    match writeEncodedEXIChunk s with
    | .error e => .error e
    | .ok s1 => .ok (writeNBitsAux nbits s1 nbits val 0)
  else .ok (writeNBitsAux nbits s nbits val 0)

/-- `writeNextBit` from `src/vendored/exip/src/streamIO/src/streamWrite.c`: if
the whole buffer is filled, flush it through the sink (failing with
`BufferEndReached` when there is no sink or the sink accepts fewer bytes than
the whole buffer), then set or clear the bit at the current position and
advance by one.  `~(1 << (7 - bitPointer))` truncated to a byte equals
`255 - (1 <<< (7 - bitPointer))`. -/
def writeNextBit (s0 : EXIStream) (bitVal : Bool) : Except errorCode EXIStream :=
  let flushed : Except errorCode EXIStream :=
    if s0.bufLen ≤ s0.bufferIndx then
      match s0.sink with
      | none => .error .BufferEndReached
      | some f =>
        if f s0.buf s0.bufLen < s0.bufLen then .error .BufferEndReached
        else .ok { s0 with bufferIndx := 0, bitPointer := 0 }
    else .ok s0
  match flushed with
  | .error e => .error e
  | .ok s =>
    let old := s.buf s.bufferIndx
    let nb := if bitVal then old ||| (1 <<< (7 - s.bitPointer))
              else old &&& (255 - (1 <<< (7 - s.bitPointer)))
    .ok (moveBitPointer
      { s with buf := fun i => if i = s.bufferIndx then nb else s.buf i } 1)

/-- Number of unread bits left in the buffer. -/
def remainingBits (s : EXIStream) : Nat := 8 * s.bufLen - totalPos s

/-- Modelled from the spec: one bit of the reader (`readBits` of exip's
`streamRead.c` and the repository's `InBitStream`, neither under src/): bits
are consumed MSB-first within a byte. -/
def readBitVal (s : EXIStream) : Nat :=
  ((s.buf s.bufferIndx) >>> (7 - s.bitPointer)) &&& 1

/-- Modelled from the spec: the accumulation loop of `read_bits(n)`: bits are
assembled in stream order, each new bit entering at the low end so that the
earlier bits end up in the higher-order positions of the result. -/
def readNBitsAux : Nat → EXIStream → Nat → Nat × EXIStream
  | 0, s, acc => (acc, s)
  | n + 1, s, acc => readNBitsAux n (moveBitPointer s 1) (2 * acc + readBitVal s)

/-- Modelled from the spec: `read_bits(n)` "fails with `BufferEndReached` if
fewer than the requested bits remain"; otherwise it assembles `n` bits in
stream order and advances the position by `n`. -/
def readNBits (s : EXIStream) (n : Nat) : Except errorCode (Nat × EXIStream) :=
  if remainingBits s < n then .error .BufferEndReached
  else .ok (readNBitsAux n s 0)

/-- The big-endian value of the `n` bits starting at absolute bit position `p`
of a byte buffer: the bit at `p` carries the highest weight. -/
def bitsValFrom (buf : Nat → Nat) (p : Nat) : Nat → Nat
  | 0 => 0
  | n + 1 => (streamBit buf p).toNat * 2 ^ n + bitsValFrom buf (p + 1) n

/-- A write stream over `len` zeroed bytes, positioned at the start, with no
flush sink. -/
def freshStream (len : Nat) : EXIStream :=
  { buf := fun _ => 0, bufLen := len, bufferIndx := 0, bitPointer := 0, sink := none }

/-- The bytes of the `InBitStream` assertions in the driver source
(`src/unnamed/part_007`), positioned after 12 consumed bits. -/
def exampleReadStream : EXIStream :=
  { buf := fun i => [0x96, 0xBB, 0xFE].getD i 0, bufLen := 3, bufferIndx := 1,
    bitPointer := 4, sink := none }

/-- A full write stream with no flush sink. -/
def noSinkFullS : EXIStream :=
  { buf := fun _ => 0, bufLen := 2, bufferIndx := 2, bitPointer := 0, sink := none }

/-- A full write stream whose sink accepts no bytes (partial flush). -/
def partialSinkFullS : EXIStream :=
  { buf := fun _ => 0, bufLen := 2, bufferIndx := 2, bitPointer := 0,
    sink := some (fun _ _ => 0) }

/-- A full write stream whose sink accepts the whole buffer. -/
def fullSinkFullS : EXIStream :=
  { buf := fun _ => 0, bufLen := 2, bufferIndx := 2, bitPointer := 0,
    sink := some (fun _ len => len) }

/-- A write stream with three already-written bits (byte 0 is `0xA0`) at bit
offset 3. -/
def cexS : EXIStream :=
  { buf := fun i => if i = 0 then 0xA0 else 0, bufLen := 3, bufferIndx := 0,
    bitPointer := 3, sink := none }

/-- The EXI header, mirroring `ExiHeader` from
`src/include/exi/Basic/ExiHeader.hpp` (`HasCookie`, `IsPreviewVersion`,
`ExiVersion`, `Opts`).  `Opts` is a `MaybeBoxed<ExiOptions>` in the source;
here only its presence is tracked (`OptsPresent`), since options decoding is
outside the modelled fragment. -/
structure ExiHeader where
  HasCookie : Bool := true
  IsPreviewVersion : Bool := false
  ExiVersion : Nat := 1
  OptsPresent : Bool := false
deriving DecidableEq, Repr

/-- Modelled from the spec: the version loop of the header decoder
(`HeaderDecoder.cpp` is not under src/), section 4.3 step 3: "Read a sequence
of 4-bit groups: each group whose value is `< 15` terminates the version
(value = 1 + sum of groups read so far)."  `fuel` bounds the loop; each
iteration consumes four bits, so any fuel larger than a quarter of the
remaining bits is enough. -/
def readVersionGroups : Nat → EXIStream → Nat → Except errorCode (Nat × EXIStream)
  | 0, _, _ => .error .UnexpectedError
  | fuel + 1, s, acc =>
    match readNBits s 4 with
    | .error e => .error e
    | .ok (g, s1) =>
      if g < 15 then .ok (1 + acc + g, s1)
      else readVersionGroups fuel s1 (acc + g)

/-- Modelled from the spec: header decoding after the optional cookie
(`HeaderDecoder.cpp` is not under src/), section 4.3 steps 2-4: the two
distinguishing bits must be `10` (else `InvalidExiHeader`), then one options
presence bit, a 4-bit preview field, and the 4-bit-group version varint. -/
def decodeAfterCookie (hasCookie : Bool) (s1 : EXIStream) :
    Except errorCode (ExiHeader × EXIStream) :=
  match readNBits s1 2 with
  | .error e => .error e
  | .ok (d, s2) =>
    if d = 2 then
      match readNBits s2 1 with
      | .error e => .error e
      | .ok (opts, s3) =>
        match readNBits s3 4 with
        | .error e => .error e
        | .ok (preview, s4) =>
          match readVersionGroups (2 * s4.bufLen + 1) s4 0 with
          | .error e => .error e
          | .ok (ver, s5) =>
            .ok ({ HasCookie := hasCookie, IsPreviewVersion := preview != 0,
                   ExiVersion := ver, OptsPresent := opts == 1 }, s5)
    else .error .InvalidExiHeader

/-- Modelled from the spec: `ExiDecoder::decodeHeader` (declared in
`src/include/exi/Decode/BodyDecoder.hpp`, defined in `HeaderDecoder.cpp` which
is not under src/), section 4.3 step 1: "If the first four bytes are `$EXI`
(0x24 0x45 0x58 0x49), consume them and record `HasCookie = true`; otherwise
record `HasCookie = false` and do not consume." -/
def decodeHeader (s0 : EXIStream) : Except errorCode (ExiHeader × EXIStream) :=
  let hasCookie := decide (4 ≤ s0.bufLen) && (s0.buf 0 == 0x24) && (s0.buf 1 == 0x45)
                     && (s0.buf 2 == 0x58) && (s0.buf 3 == 0x49)
  let s1 := if hasCookie then { s0 with bufferIndx := s0.bufferIndx + 4 } else s0
  decodeAfterCookie hasCookie s1

/-- The value stored for each entry of the URI map, from `decode::URIInfo` in
`src/include/exi/Decode/BodyDecoder.hpp`: the URI string, the number of
elements of the Prefix partition (default 1), and the number of elements of
the LocalName partition (default 0). -/
structure URIInfo where
  Name : String
  PrefixElts : Nat := 1
  LNElts : Nat := 0
deriving DecidableEq, Repr

instance : Inhabited URIInfo := ⟨{ Name := "" }⟩

/-- The value stored for each entry of the LocalName map, from
`decode::LocalName` in `src/include/exi/Decode/BodyDecoder.hpp`.  Interned
string pointers (`StrRef`, `InlineStr*`) are modelled as `String`s. -/
structure LocalName where
  Name : String
  FullName : Option String := none
  LocalValues : List String
deriving DecidableEq, Repr

/-- Modelled from the spec: `CompactIDLog2` from `exi/Basic/CompactID.hpp`
(the header is not under src/): the compact-ID bit width for `m` logical
entries, `ceil(log2 m)` — per section 3, "a partition of `n` entries requires
`ceil(log2(n + 1))` bits", the call sites supplying the count plus one where
the extra logical entry exists. -/
def CompactIDLog2 (m : Nat) : Nat := Nat.clog 2 m

/-- `LocalName::bits()` from `src/include/exi/Decode/BodyDecoder.hpp`:
`CompactIDLog2(LocalValues.size() + 1)`. -/
def LocalName.bits (ln : LocalName) : Nat :=
  CompactIDLog2 (ln.LocalValues.length + 1)

/-- `LocalName::bytes()` from `src/include/exi/Decode/BodyDecoder.hpp`: `0`
when the local-value list is empty, otherwise `bits() / 8 + 1`. -/
def LocalName.bytes (ln : LocalName) : Nat :=
  if ln.LocalValues.isEmpty then 0 else ln.bits / 8 + 1

/-- The decoder string table, from `decode::StringTable` in
`src/include/exi/Decode/BodyDecoder.hpp`.  The container members (`URIMap`,
`PrefixMap`, `LNMap`, `GValueMap`) are modelled as lists; allocators and the
string cache are dropped, and the `LNCount` counter is represented by
`LNMap.length`. -/
structure StringTable where
  URIMap : List URIInfo
  PrefixMap : List (List String)
  LNMap : List (List LocalName)
  GValueMap : List String
deriving DecidableEq, Repr

/-- `StringTable::getLocalNameLog` from
`src/include/exi/Decode/BodyDecoder.hpp`:
`CompactIDLog2<>(URIMap[URI].LNElts)`. -/
def StringTable.getLocalNameLog (st : StringTable) (URI : Nat) : Nat :=
  CompactIDLog2 ((st.URIMap.getD URI default).LNElts)

/-- `StringTable::getURI` from `src/include/exi/Decode/BodyDecoder.hpp`. -/
def StringTable.getURI (st : StringTable) (URI : Nat) : String :=
  (st.URIMap.getD URI default).Name

/-- `StringTable::getLocalName` from `src/include/exi/Decode/BodyDecoder.hpp`. -/
def StringTable.getLocalName (st : StringTable) (URI LocalID : Nat) : String :=
  (((st.LNMap.getD URI []).getD LocalID ⟨"", none, []⟩)).Name

/-- Modelled from the spec: `addURI` (`StringTables.cpp` is not under src/),
section 4.4: appends a `URIInfo` (fresh entries use the `URIInfo` defaults), a
new prefix sub-partition holding the optional prefix, and an empty local-name
sub-partition. -/
def StringTable.addURI (st : StringTable) (URI : String) (Pfx : Option String) :
    StringTable :=
  { st with URIMap := st.URIMap ++ [{ Name := URI }],
            PrefixMap := st.PrefixMap ++ [Pfx.toList],
            LNMap := st.LNMap ++ [[]] }

/-- Modelled from the spec: `addPrefix` (`StringTables.cpp` is not under
src/), section 4.4: appends the prefix to the URI's prefix sub-partition and
bumps the URI's prefix element count. -/
def StringTable.addPfx (st : StringTable) (URI : Nat) (Pfx : String) :
    StringTable :=
  { st with PrefixMap := st.PrefixMap.set URI ((st.PrefixMap.getD URI []) ++ [Pfx]),
            URIMap := st.URIMap.set URI
              (let u := st.URIMap.getD URI default
               { u with PrefixElts := u.PrefixElts + 1 }) }

/-- Modelled from the spec: `addLocalName` (`StringTables.cpp` is not under
src/), section 4.4: "Appends a new LocalName with an empty local-value list"
to the URI's local-name sub-partition and bumps the URI's `LNElts`. -/
def StringTable.addLocalName (st : StringTable) (URI : Nat) (Name : String) :
    StringTable :=
  { st with LNMap := st.LNMap.set URI ((st.LNMap.getD URI []) ++ [⟨Name, none, []⟩]),
            URIMap := st.URIMap.set URI
              (let u := st.URIMap.getD URI default
               { u with LNElts := u.LNElts + 1 }) }

/-- Modelled from the spec: global-value `addValue` (`StringTables.cpp` is not
under src/), section 4.4: "appends to the global partition only". -/
def StringTable.addGValue (st : StringTable) (Value : String) : StringTable :=
  { st with GValueMap := st.GValueMap ++ [Value] }

/-- Modelled from the spec: (URI, LocalID)-scoped `addValue`
(`StringTables.cpp` is not under src/), section 4.4: "appends to both the
local-value list and the global partition". -/
def StringTable.addLValue (st : StringTable) (URI LocalID : Nat) (Value : String) :
    StringTable :=
  { st with LNMap := st.LNMap.set URI
              (let lns := st.LNMap.getD URI []
               lns.set LocalID
                 (let ln := lns.getD LocalID ⟨"", none, []⟩
                  { ln with LocalValues := ln.LocalValues ++ [Value] })),
            GValueMap := st.GValueMap ++ [Value] }

/-- One mutating string-table operation, ranging over the operations of
section 4.4. -/
inductive TableOp where
  | uri (URI : String) (Pfx : Option String)
  | pfx (URI : Nat) (P : String)
  | localName (URI : Nat) (Name : String)
  | gvalue (V : String)
  | lvalue (URI LocalID : Nat) (V : String)

/-- Applies one table operation. -/
def applyOp (st : StringTable) : TableOp → StringTable
  | .uri u p => st.addURI u p
  | .pfx u p => st.addPfx u p
  | .localName u n => st.addLocalName u n
  | .gvalue v => st.addGValue v
  | .lvalue u l v => st.addLValue u l v

/-- Modelled from the spec: the schema-less pre-seeded entries of `setup` /
`createInitialEntries` (`StringTables.cpp` is not under src/), section 3:
"(0) empty URI, (1) XML namespace, (2) XSI namespace", with the pre-seeded
prefixes and built-in local names of the XML and XSI namespaces. -/
def setupTable : StringTable :=
  let t0 := (StringTable.mk [] [] [] []).addURI "" none
  let t1 := (t0.addURI "http://www.w3.org/XML/1998/namespace" (some "xml"))
  let t2 := ["base", "id", "lang", "space"].foldl (fun t n => t.addLocalName 1 n) t1
  let t3 := t2.addURI "http://www.w3.org/2001/XMLSchema-instance" (some "xsi")
  ["nil", "type"].foldl (fun t n => t.addLocalName 2 n) t3

/-- The synchronisation invariant checked by
`StringTable::assertPartitionsInSync` in
`src/include/exi/Decode/BodyDecoder.hpp`: the URI, Prefix and LocalName
partitions have the same number of sub-partitions. -/
def partitionsInSync (st : StringTable) : Prop :=
  st.URIMap.length = st.PrefixMap.length ∧ st.URIMap.length = st.LNMap.length

/-- Header scenario input: the `$EXI` cookie followed by the bits
`10 0 0000 0000` (packed MSB-first as `0x80 0x00`). -/
def hdrStream : EXIStream :=
  { buf := fun i => [0x24, 0x45, 0x58, 0x49, 0x80, 0x00].getD i 0, bufLen := 6,
    bufferIndx := 0, bitPointer := 0, sink := none }

/-- A stream whose first two bits are `00`, not the distinguishing `10`. -/
def badBitsStream : EXIStream :=
  { buf := fun _ => 0, bufLen := 1, bufferIndx := 0, bitPointer := 0, sink := none }

/-- A local name holding one local value. -/
def exampleLN : LocalName := { Name := "a", FullName := none, LocalValues := ["v"] }

/-- A table whose URI 0 has one local name. -/
def oneLNTable : StringTable :=
  { URIMap := [{ Name := "", PrefixElts := 1, LNElts := 1 }], PrefixMap := [[]],
    LNMap := [[{ Name := "x", FullName := none, LocalValues := [] }]], GValueMap := [] }

/-- A table whose URI 0 has three local names. -/
def threeLNTable : StringTable :=
  { URIMap := [{ Name := "", PrefixElts := 1, LNElts := 3 }], PrefixMap := [[]],
    LNMap := [[{ Name := "a", FullName := none, LocalValues := [] },
               { Name := "b", FullName := none, LocalValues := [] },
               { Name := "c", FullName := none, LocalValues := [] }]],
    GValueMap := [] }

/-! Theorems. -/

theorem totalPos_moveBitPointer (s : EXIStream) (n : Nat) :
    totalPos (moveBitPointer s n) = totalPos s + n := by
  simp only [totalPos, moveBitPointer]
  omega

theorem bitPointer_moveBitPointer_lt (s : EXIStream) (n : Nat) :
    (moveBitPointer s n).bitPointer < 8 := by
  simp only [moveBitPointer]
  omega

theorem buf_moveBitPointer (s : EXIStream) (n : Nat) :
    (moveBitPointer s n).buf = s.buf := rfl

theorem bufLen_moveBitPointer (s : EXIStream) (n : Nat) :
    (moveBitPointer s n).bufLen = s.bufLen := rfl

/-- The byte-complemented mask `255 - BIT_MASK m` has exactly the bits
`m ≤ i < 8` set. -/
theorem notMask_testBit (m i : Nat) (hm : m ≤ 8) :
    (255 - BIT_MASK m).testBit i = (decide (m ≤ i) && decide (i < 8)) := by
  have h2 : (2 : Nat) ^ (8 - m) * 2 ^ m = 2 ^ 8 := by
    rw [← pow_add]
    congr 1
    omega
  have hmle : (2 : Nat) ^ m ≤ 2 ^ 8 := Nat.pow_le_pow_right (by omega) hm
  have hm1 : (1 : Nat) ≤ 2 ^ m := Nat.one_le_two_pow
  have h1 : 255 - BIT_MASK m = (2 ^ (8 - m) - 1) <<< m := by
    rw [Nat.shiftLeft_eq, Nat.sub_mul, one_mul, h2]
    simp only [BIT_MASK]
    omega
  rw [h1, Nat.testBit_shiftLeft, Nat.testBit_two_pow_sub_one]
  rcases le_or_lt m i with h | h
  · simp only [decide_eq_true (show i ≥ m by omega), Bool.true_and,
      decide_eq_true h, Bool.and_true]
    exact decide_eq_decide.mpr (by omega)
  · simp only [decide_eq_false (show ¬ (i ≥ m) by omega), Bool.false_and,
      decide_eq_false (show ¬ (m ≤ i) by omega)]

/-- Bit content of the byte assembled by one iteration of the `writeNBits`
loop: positions before the current bit offset keep the old byte's bits, the
next `k` positions receive the matching slice of `val`, and the positions
after the slice are zeroed. -/
theorem newByte_testBit (old val nbits w k bp o : Nat) (hbp : bp < 8)
    (hk1 : 1 ≤ k) (hk2 : bp + k ≤ 8) (hkw : w + k ≤ nbits) (ho : o < 8) :
    (((old &&& (255 - BIT_MASK (8 - bp))) |||
        (((val >>> (nbits - w - k)) &&& BIT_MASK k) <<< (8 - bp - k))).testBit (7 - o))
      = if o < bp then old.testBit (7 - o)
        else if o < bp + k then val.testBit (nbits - 1 - (w + (o - bp)))
        else false := by
  rw [Nat.testBit_lor, Nat.testBit_land, notMask_testBit (8 - bp) (7 - o) (by omega)]
  rw [Nat.testBit_shiftLeft, Nat.testBit_land, Nat.testBit_shiftRight]
  simp only [BIT_MASK, Nat.testBit_two_pow_sub_one]
  rcases Nat.lt_or_ge o bp with h1 | h1
  · -- the old byte's bit passes through the mask; the shifted slice is zero here
    rw [if_pos h1]
    simp only [decide_eq_true (show 7 - o ≥ 8 - bp - k by omega),
      decide_eq_false (show ¬ (7 - o - (8 - bp - k) < k) by omega),
      decide_eq_true (show 8 - bp ≤ 7 - o by omega),
      decide_eq_true (show 7 - o < 8 by omega),
      Bool.and_true, Bool.true_and, Bool.and_false, Bool.or_false]
  · rw [if_neg (by omega)]
    rcases Nat.lt_or_ge o (bp + k) with h2 | h2
    · rw [if_pos h2]
      have hidx : nbits - w - k + (7 - o - (8 - bp - k)) = nbits - 1 - (w + (o - bp)) := by
        omega
      simp only [decide_eq_false (show ¬ (8 - bp ≤ 7 - o) by omega), Bool.and_false,
        Bool.false_or, decide_eq_true (show 7 - o ≥ 8 - bp - k by omega),
        decide_eq_true (show 7 - o - (8 - bp - k) < k by omega),
        Bool.true_and, Bool.and_true, Bool.false_and, hidx]
    · rw [if_neg (show ¬ o < bp + k by omega)]
      simp only [decide_eq_false (show ¬ (8 - bp ≤ 7 - o) by omega),
        decide_eq_false (show ¬ (7 - o ≥ 8 - bp - k) by omega),
        Bool.and_false, Bool.false_and, Bool.false_or]

/-- The `writeNBits` loop is a no-op once `numBitsWrite` reaches `nbits`. -/
theorem writeNBitsAux_done (fuel : Nat) (s : EXIStream) (nbits val w : Nat)
    (h : nbits ≤ w) : writeNBitsAux fuel s nbits val w = s := by
  cases fuel with
  | zero => rfl
  | succ fuel => simp only [writeNBitsAux, if_neg (by omega : ¬ w < nbits)]

theorem streamBit_at (buf : Nat → Nat) (idx o : Nat) (ho : o < 8) :
    streamBit buf (8 * idx + o) = (buf idx).testBit (7 - o) := by
  have h1 : (8 * idx + o) / 8 = idx := by omega
  have h2 : (8 * idx + o) % 8 = o := by omega
  rw [streamBit, h1, h2]

/-- Invariant of the `writeNBits` loop: starting with `w` bits of `nbits`
already written, the loop (a) preserves the buffer length and the sink, (b)
advances the position by exactly the remaining `nbits - w` bits, (c) keeps the
bit offset below 8, (d) leaves every bit before the starting position
untouched, (e) stores the remaining slice of `val` MSB-first at the starting
position, and (f) zero-fills the trailing bit positions of the final byte. -/
theorem writeNBitsAux_spec (fuel : Nat) :
    ∀ (s : EXIStream) (nbits val w : Nat), s.bitPointer < 8 → nbits - w ≤ fuel →
    (writeNBitsAux fuel s nbits val w).bufLen = s.bufLen ∧
    (writeNBitsAux fuel s nbits val w).sink = s.sink ∧
    totalPos (writeNBitsAux fuel s nbits val w) = totalPos s + (nbits - w) ∧
    (writeNBitsAux fuel s nbits val w).bitPointer < 8 ∧
    (∀ j, j < totalPos s →
      streamBit (writeNBitsAux fuel s nbits val w).buf j = streamBit s.buf j) ∧
    (∀ i, i < nbits - w →
      streamBit (writeNBitsAux fuel s nbits val w).buf (totalPos s + i)
        = val.testBit (nbits - 1 - (w + i))) ∧
    (w < nbits → (writeNBitsAux fuel s nbits val w).bitPointer ≠ 0 →
      ∀ o, (writeNBitsAux fuel s nbits val w).bitPointer ≤ o → o < 8 →
      streamBit (writeNBitsAux fuel s nbits val w).buf
        (8 * (writeNBitsAux fuel s nbits val w).bufferIndx + o) = false) := by
  induction fuel with
  | zero =>
    intro s nbits val w hbp hfuel
    exact ⟨rfl, rfl, by show totalPos s = totalPos s + (nbits - w); omega, hbp,
      fun j _ => rfl,
      fun i hi => absurd hi (by omega), fun hlt => absurd hlt (by omega)⟩
  | succ fuel ih =>
    intro s nbits val w hbp hfuel
    by_cases hw : w < nbits
    case neg =>
      rw [writeNBitsAux_done (fuel + 1) s nbits val w (by omega)]
      exact ⟨rfl, rfl, by omega, hbp, fun j _ => rfl,
        fun i hi => absurd hi (by omega), fun hlt => absurd hlt (by omega)⟩
    case pos =>
      simp only [writeNBitsAux, if_pos hw]
      set k : Nat := if nbits - w ≤ 8 - s.bitPointer then nbits - w else 8 - s.bitPointer
        with hkdef
      have hk1 : 1 ≤ k := by rw [hkdef]; split <;> omega
      have hk2 : s.bitPointer + k ≤ 8 := by rw [hkdef]; split <;> omega
      have hk3 : k ≤ nbits - w := by rw [hkdef]; split <;> omega
      set NB : Nat := ((s.buf s.bufferIndx) &&& (255 - BIT_MASK (8 - s.bitPointer))) |||
        (((val >>> (nbits - w - k)) &&& BIT_MASK k) <<< (8 - s.bitPointer - k)) with hNB
      set s1 : EXIStream :=
        { s with buf := fun i => if i = s.bufferIndx then NB else s.buf i } with hs1
      set s2 : EXIStream := moveBitPointer s1 k with hs2
      have hpos : totalPos s = 8 * s.bufferIndx + s.bitPointer := rfl
      have hpos1 : totalPos s1 = totalPos s := rfl
      have hpos2 : totalPos s2 = totalPos s + k := by
        rw [hs2, totalPos_moveBitPointer, hpos1]
      have hbyte : ∀ o, o < 8 →
          streamBit s1.buf (8 * s.bufferIndx + o)
            = if o < s.bitPointer then streamBit s.buf (8 * s.bufferIndx + o)
              else if o < s.bitPointer + k then
                val.testBit (nbits - 1 - (w + (o - s.bitPointer)))
              else false := by
        intro o ho
        rw [streamBit_at _ _ _ ho, streamBit_at _ _ _ ho]
        show (if s.bufferIndx = s.bufferIndx then NB else s.buf s.bufferIndx).testBit (7 - o)
          = _
        rw [if_pos rfl, hNB]
        exact newByte_testBit (s.buf s.bufferIndx) val nbits w k s.bitPointer o hbp hk1
          hk2 (by omega) ho
      have hother : ∀ j, j / 8 ≠ s.bufferIndx → streamBit s1.buf j = streamBit s.buf j := by
        intro j hj
        unfold streamBit
        rw [show s1.buf (j / 8) = s.buf (j / 8) from by rw [hs1]; exact if_neg hj]
      have hs2buf : s2.buf = s1.buf := rfl
      have hs2len : s2.bufLen = s.bufLen := rfl
      have hs2sink : s2.sink = s.sink := rfl
      have hbp2 : s2.bitPointer < 8 := bitPointer_moveBitPointer_lt s1 k
      obtain ⟨ih1, ih2, ih3, ih4, ih5, ih6, ih7⟩ :=
        ih s2 nbits val (w + k) hbp2 (by omega)
      -- bits strictly before the start of this iteration are unchanged by it
      have hpres1 : ∀ j, j < totalPos s → streamBit s1.buf j = streamBit s.buf j := by
        intro j hj
        by_cases hjb : j / 8 = s.bufferIndx
        case neg => exact hother j hjb
        case pos =>
          have hjo : j = 8 * s.bufferIndx + j % 8 := by omega
          have hlt : j % 8 < s.bitPointer := by
            rw [hpos] at hj; omega
          rw [hjo, hbyte (j % 8) (by omega), if_pos hlt]
      refine ⟨by rw [ih1, hs2len], by rw [ih2, hs2sink], by rw [ih3, hpos2]; omega,
        ih4, ?_, ?_, ?_⟩
      · -- preservation of bits before the starting position
        intro j hj
        rw [ih5 j (by omega), hs2buf, hpres1 j hj]
      · -- the written slice of `val`
        intro i hi
        rcases Nat.lt_or_ge i k with hik | hik
        · have hj : totalPos s + i < totalPos s2 := by omega
          rw [ih5 _ hj, hs2buf]
          have hform : totalPos s + i = 8 * s.bufferIndx + (s.bitPointer + i) := by
            rw [hpos]; omega
          rw [hform, hbyte (s.bitPointer + i) (by omega),
            if_neg (by omega), if_pos (by omega)]
          congr 2
          omega
        · have h6 := ih6 (i - k) (by omega)
          rw [hpos2] at h6
          rw [show totalPos s + i = totalPos s + k + (i - k) from by omega]
          rw [h6]
          congr 2
          omega
      · -- trailing bits of the final byte are zero
        intro _ hne o ho1 ho2
        rcases Nat.lt_or_ge (w + k) nbits with hlast | hlast
        · exact ih7 (by omega) hne o ho1 ho2
        · have hdone : writeNBitsAux fuel s2 nbits val (w + k) = s2 :=
            writeNBitsAux_done fuel s2 nbits val (w + k) (by omega)
          rw [hdone] at hne ho1 ⊢
          have hlt8 : s.bitPointer + k < 8 := by
            rcases Nat.lt_or_ge (s.bitPointer + k) 8 with h | h
            · exact h
            · exfalso
              have h8 : s.bitPointer + k = 8 := by omega
              have : s2.bitPointer = 0 := by
                rw [hs2]
                simp only [moveBitPointer]
                rw [show s1.bitPointer = s.bitPointer from rfl, h8]
              exact hne this
          have hbp2v : s2.bitPointer = s.bitPointer + k := by
            rw [hs2]
            simp only [moveBitPointer]
            rw [show s1.bitPointer = s.bitPointer from rfl]
            omega
          have hidx2 : s2.bufferIndx = s.bufferIndx := by
            rw [hs2]
            simp only [moveBitPointer]
            rw [show s1.bitPointer = s.bitPointer from rfl,
              show s1.bufferIndx = s.bufferIndx from rfl]
            omega
          rw [hbp2v] at ho1
          rw [hidx2, hs2buf, hbyte o ho2, if_neg (by omega), if_neg (by omega)]

/-- One reader step extracts exactly the stream bit at the current position. -/
theorem readBitVal_eq (s : EXIStream) (hbp : s.bitPointer < 8) :
    readBitVal s = (streamBit s.buf (totalPos s)).toNat := by
  have h := streamBit_at s.buf s.bufferIndx s.bitPointer hbp
  rw [show (8 * s.bufferIndx + s.bitPointer : Nat) = totalPos s from rfl] at h
  rw [readBitVal, h, Nat.and_one_is_mod, Nat.shiftRight_eq_div_pow, Nat.testBit_to_div_mod]
  rcases Nat.mod_two_eq_zero_or_one ((s.buf s.bufferIndx) / 2 ^ (7 - s.bitPointer))
    with h2 | h2 <;> rw [h2] <;> simp

/-- Invariant of the read loop: the accumulated value is the big-endian
assembly of the consumed bits, and the position advances by the bit count. -/
theorem readNBitsAux_spec (n : Nat) :
    ∀ (s : EXIStream) (acc : Nat), s.bitPointer < 8 →
    (readNBitsAux n s acc).1 = acc * 2 ^ n + bitsValFrom s.buf (totalPos s) n ∧
    totalPos (readNBitsAux n s acc).2 = totalPos s + n ∧
    (readNBitsAux n s acc).2.buf = s.buf ∧
    (readNBitsAux n s acc).2.bufLen = s.bufLen ∧
    (readNBitsAux n s acc).2.bitPointer < 8 := by
  induction n with
  | zero =>
    intro s acc hbp
    exact ⟨by simp [readNBitsAux, bitsValFrom], rfl, rfl, rfl, hbp⟩
  | succ n ihn =>
    intro s acc hbp
    have hstep : readNBitsAux (n + 1) s acc
        = readNBitsAux n (moveBitPointer s 1) (2 * acc + readBitVal s) := rfl
    obtain ⟨h1, h2, h3, h4, h5⟩ := ihn (moveBitPointer s 1) (2 * acc + readBitVal s)
      (bitPointer_moveBitPointer_lt s 1)
    rw [hstep]
    refine ⟨?_, ?_, by rw [h3, buf_moveBitPointer], by rw [h4, bufLen_moveBitPointer], h5⟩
    · rw [h1, buf_moveBitPointer, totalPos_moveBitPointer, readBitVal_eq s hbp]
      rw [show bitsValFrom s.buf (totalPos s) (n + 1)
        = (streamBit s.buf (totalPos s)).toNat * 2 ^ n
          + bitsValFrom s.buf (totalPos s + 1) n from rfl]
      ring
    · rw [h2, totalPos_moveBitPointer]
      omega

/-- If the `n` bits at position `p` spell out `v` MSB-first, their big-endian
assembly is `v`. -/
theorem bitsValFrom_eq (n : Nat) :
    ∀ (buf : Nat → Nat) (p v : Nat), v < 2 ^ n →
    (∀ i, i < n → streamBit buf (p + i) = v.testBit (n - 1 - i)) →
    bitsValFrom buf p n = v := by
  induction n with
  | zero =>
    intro buf p v hv _
    rw [show bitsValFrom buf p 0 = 0 from rfl]
    omega
  | succ n ihn =>
    intro buf p v hv hbits
    have hrec : bitsValFrom buf (p + 1) n = v % 2 ^ n := by
      apply ihn
      · exact Nat.mod_lt _ (pow_pos (by omega) n)
      · intro i hi
        have h := hbits (1 + i) (by omega)
        rw [show p + (1 + i) = p + 1 + i from by omega] at h
        rw [h, Nat.testBit_mod_two_pow,
          decide_eq_true (show n - 1 - i < n from by omega), Bool.true_and]
        congr 1
        omega
    rw [show bitsValFrom buf p (n + 1)
      = (streamBit buf p).toNat * 2 ^ n + bitsValFrom buf (p + 1) n from rfl, hrec]
    have h0 := hbits 0 (by omega)
    rw [Nat.add_zero] at h0
    rw [h0, show n + 1 - 1 - 0 = n from by omega]
    have hdm := Nat.div_add_mod v (2 ^ n)
    have hpow : (2 : Nat) ^ (n + 1) = 2 * 2 ^ n := by rw [pow_succ]; ring
    have hdlt : v / 2 ^ n < 2 := Nat.div_lt_of_lt_mul (by omega)
    rw [Nat.testBit_to_div_mod]
    have hcases : v / 2 ^ n = 0 ∨ v / 2 ^ n = 1 := by
      revert hdlt
      generalize v / 2 ^ n = d
      omega
    rcases hcases with h | h
    · rw [h] at hdm
      simp only [h]
      norm_num
      omega
    · rw [h] at hdm
      simp only [h]
      norm_num
      omega

/-- When the byte-count guard passes, `writeNBits` runs its loop from the
current position. -/
theorem writeNBits_spec (s : EXIStream) (nbits val : Nat)
    (hroom : s.bufferIndx + (nbits / 8 + if 8 - s.bitPointer < nbits % 8 then 1 else 0)
      < s.bufLen) :
    writeNBits s nbits val = .ok (writeNBitsAux nbits s nbits val 0) := by
  simp only [writeNBits]
  rw [if_neg (by omega)]

/-- C1: for every `n ∈ [0, 64]` and every `v ∈ [0, 2^n - 1]`, writing `v` as
`n` bits with the bit-stream writer into a fresh buffer and then reading `n`
bits back from the start of the resulting stream returns `v`, and the writer's
final bit position equals the reader's final bit position. -/
theorem bit_write_read_roundtrip (n v : Nat) (hn : n ≤ 64) (hv : v < 2 ^ n) :
    ∃ ws rs, writeNBits (freshStream 9) n v = .ok ws ∧
      readNBits { ws with bufferIndx := 0, bitPointer := 0 } n = .ok (v, rs) ∧
      totalPos ws = n ∧ totalPos rs = totalPos ws := by
  have hok : writeNBits (freshStream 9) n v
      = .ok (writeNBitsAux n (freshStream 9) n v 0) := by
    apply writeNBits_spec
    show (0 : Nat) + (n / 8 + if 8 - 0 < n % 8 then 1 else 0) < 9
    rw [if_neg (by omega)]
    omega
  obtain ⟨hw1, hw2, hw3, hw4, hw5, hw6, hw7⟩ :=
    writeNBitsAux_spec n (freshStream 9) n v 0 (by show (0 : Nat) < 8; omega) (by omega)
  set ws := writeNBitsAux n (freshStream 9) n v 0 with hws
  set rs0 : EXIStream := { ws with bufferIndx := 0, bitPointer := 0 } with hrs0
  have hrs0pos : totalPos rs0 = 0 := rfl
  have hlen : rs0.bufLen = 9 := hw1
  have hrem : ¬ (remainingBits rs0 < n) := by
    rw [remainingBits, hrs0pos, hlen]
    omega
  obtain ⟨hr1, hr2, hr3, hr4, hr5⟩ :=
    readNBitsAux_spec n rs0 0 (by show (0 : Nat) < 8; omega)
  have hval : bitsValFrom rs0.buf 0 n = v := by
    apply bitsValFrom_eq n rs0.buf 0 v hv
    intro i hi
    have h := hw6 i (by omega)
    rw [show totalPos (freshStream 9) = 0 from rfl, Nat.zero_add] at h
    rw [Nat.zero_add, show rs0.buf = ws.buf from rfl, h]
  have hfst : (readNBitsAux n rs0 0).1 = v := by
    rw [hr1, hrs0pos, hval]
    ring
  refine ⟨ws, (readNBitsAux n rs0 0).2, hok, ?_, ?_, ?_⟩
  · rw [readNBits, if_neg hrem, ← hfst, Prod.mk.eta]
  · rw [hw3, show totalPos (freshStream 9) = 0 from rfl]
    omega
  · rw [hr2, hrs0pos, hw3, show totalPos (freshStream 9) = 0 from rfl]
    omega

/-- Witness for the bit round-trip at `n = 12`, `v = 3070`. -/
theorem bit_write_read_roundtrip_witness :
    12 ≤ 64 ∧ 3070 < 2 ^ 12 ∧
    ∃ ws rs, writeNBits (freshStream 9) 12 3070 = .ok ws ∧
      readNBits { ws with bufferIndx := 0, bitPointer := 0 } 12 = .ok (3070, rs) ∧
      totalPos ws = 12 ∧ totalPos rs = totalPos ws :=
  ⟨by omega, by norm_num, bit_write_read_roundtrip 12 3070 (by omega) (by norm_num)⟩

/-- C2: bit-stream reads and writes are MSB-first within a byte and big-endian
across bytes.  Every in-bounds `readNBits` assembles its result in stream
order — `bitsValFrom` gives the earlier bit (and hence the earlier byte) the
higher weight — and every in-bounds `writeNBits` places bit `i` of the span at
stream position `totalPos s + i` holding bit `n - 1 - i` of the value, so the
value's high bit occupies the first bit position. -/
theorem stream_msb_first_big_endian :
    (∀ (s : EXIStream) (n : Nat), s.bitPointer < 8 → n ≤ remainingBits s →
      ∃ s', readNBits s n = .ok (bitsValFrom s.buf (totalPos s) n, s') ∧
        totalPos s' = totalPos s + n) ∧
    (∀ (s : EXIStream) (n v : Nat) (w : EXIStream), s.bitPointer < 8 →
      writeNBits s n v = .ok w →
      s.bufferIndx + (n / 8 + if 8 - s.bitPointer < n % 8 then 1 else 0) < s.bufLen →
      ∀ i, i < n → streamBit w.buf (totalPos s + i) = v.testBit (n - 1 - i)) := by
  constructor
  · intro s n hbp hrem
    obtain ⟨hr1, hr2, hr3, hr4, hr5⟩ := readNBitsAux_spec n s 0 hbp
    have hfst : (readNBitsAux n s 0).1 = bitsValFrom s.buf (totalPos s) n := by
      rw [hr1]
      ring
    refine ⟨(readNBitsAux n s 0).2, ?_, hr2⟩
    rw [readNBits, if_neg (by omega), ← hfst, Prod.mk.eta]
  · intro s n v w hbp hok hroom i hi
    rw [writeNBits_spec s n v hroom] at hok
    obtain rfl : writeNBitsAux n s n v 0 = w := by
      injection hok
    obtain ⟨_, _, _, _, _, hw6, _⟩ := writeNBitsAux_spec n s n v 0 hbp (by omega)
    have h := hw6 i (by omega)
    rw [Nat.zero_add] at h
    exact h

/-- Witness for the stream ordering: the reader instance reproduces the driver
assertion `readBits(12) = 0b101111111110` after 12 consumed bits over the
bytes `0x96 0xBB 0xFE`, and the writer instance places the high bit of the
written value at the first free bit position. -/
theorem stream_msb_first_big_endian_witness :
    ((∃ s', readNBits exampleReadStream 12
        = .ok (bitsValFrom exampleReadStream.buf (totalPos exampleReadStream) 12, s') ∧
        totalPos s' = totalPos exampleReadStream + 12) ∧
      bitsValFrom exampleReadStream.buf (totalPos exampleReadStream) 12 = 3070) ∧
    streamBit (writeNBitsAux 4 (freshStream 9) 4 9 0).buf (totalPos (freshStream 9) + 0)
      = Nat.testBit 9 (4 - 1 - 0) :=
  ⟨⟨stream_msb_first_big_endian.1 exampleReadStream 12 (by decide) (by decide),
    by decide⟩,
   stream_msb_first_big_endian.2 (freshStream 9) 4 9 (writeNBitsAux 4 (freshStream 9) 4 9 0)
     (by decide) rfl (by decide) 0 (by decide)⟩

/-- Setting or clearing the most significant bit of a byte stores the written
bit there. -/
theorem setBit_testBit (old : Nat) (b : Bool) :
    (if b = true then old ||| (1 <<< 7) else old &&& (255 - (1 <<< 7))).testBit 7 = b := by
  cases b
  · rw [if_neg (by simp)]
    rw [show (255 - (1 <<< 7) : Nat) = 2 ^ 7 - 1 from by decide]
    rw [Nat.testBit_land, Nat.testBit_two_pow_sub_one]
    simp
  · rw [if_pos rfl, Nat.testBit_lor, Nat.testBit_shiftLeft]
    norm_num

/-- C3: `writeNextBit` on a full buffer fails with `BufferEndReached` when no
flush sink is configured; with a sink that accepts fewer bytes than the whole
buffer it also fails with `BufferEndReached`; with a sink that accepts the
whole buffer the writer flushes, resets its position to the start of the
buffer, and continues with the write (position advances to bit 1 and the bit
lands in the first bit of the buffer). -/
theorem writeNextBit_flush (s : EXIStream) (b : Bool) (hfull : s.bufLen ≤ s.bufferIndx) :
    (s.sink = none → writeNextBit s b = .error .BufferEndReached) ∧
    (∀ f, s.sink = some f → f s.buf s.bufLen < s.bufLen →
      writeNextBit s b = .error .BufferEndReached) ∧
    (∀ f, s.sink = some f → s.bufLen ≤ f s.buf s.bufLen →
      ∃ r, writeNextBit s b = .ok r ∧ r.bufferIndx = 0 ∧ r.bitPointer = 1 ∧
        streamBit r.buf 0 = b) := by
  refine ⟨?_, ?_, ?_⟩
  · intro hnone
    simp only [writeNextBit, if_pos hfull, hnone]
  · intro f hf hlt
    simp only [writeNextBit, if_pos hfull, hf, if_pos hlt]
  · intro f hf hge
    simp only [writeNextBit, if_pos hfull, hf, if_neg (not_lt.mpr hge)]
    exact ⟨_, rfl, by simp [moveBitPointer], by simp [moveBitPointer],
      setBit_testBit (s.buf 0) b⟩

/-- Witness for the three flush behaviours at concrete full streams. -/
theorem writeNextBit_flush_witness :
    writeNextBit noSinkFullS true = .error .BufferEndReached ∧
    writeNextBit partialSinkFullS true = .error .BufferEndReached ∧
    ∃ r, writeNextBit fullSinkFullS true = .ok r ∧ r.bufferIndx = 0 ∧
      r.bitPointer = 1 ∧ streamBit r.buf 0 = true :=
  ⟨(writeNextBit_flush noSinkFullS true (by decide)).1 rfl,
   (writeNextBit_flush partialSinkFullS true (by decide)).2.1 (fun _ _ => 0) rfl (by decide),
   (writeNextBit_flush fullSinkFullS true (by decide)).2.2 (fun _ len => len) rfl (by decide)⟩

/-- C4 counterexample: a successful one-bit write at bit offset 1 changes the
high `8 - (1 mod 8) = 7` bits of the current byte (the newly-written bit lies
inside them), so the high `8 - (bit_off mod 8)` bits do not retain their
previously-written content.  The high `m` bits of a byte `B` are `B >>> (8 - m)`;
here `8 - m = bit_off mod 8`. -/
theorem write_frame_high_bits_cex :
    ∃ s1 s2, writeNBits (freshStream 2) 1 1 = .ok s1 ∧ writeNBits s1 1 1 = .ok s2 ∧
      s1.bitPointer % 8 = 1 ∧ s2.bufferIndx = s1.bufferIndx ∧
      ¬ ((s2.buf s1.bufferIndx) >>> (s1.bitPointer % 8)
          = (s1.buf s1.bufferIndx) >>> (s1.bitPointer % 8)) :=
  ⟨writeNBitsAux 1 (freshStream 2) 1 1 0,
   writeNBitsAux 1 (writeNBitsAux 1 (freshStream 2) 1 1 0) 1 1 0,
   rfl, rfl, by decide, by decide, by decide⟩

/-- C4 amended: for every successful `writeNBits` of `n` bits that does not
trigger a flush, every bit strictly before the starting position — in
particular the high `bit_off mod 8` previously-written bits of the current
byte — retains its value, the `n`-bit span receives the value's bits, and the
unused trailing bits of the final byte are zero. -/
theorem write_frame_effect (s : EXIStream) (n v : Nat) (w : EXIStream)
    (hbp : s.bitPointer < 8)
    (hroom : s.bufferIndx + (n / 8 + if 8 - s.bitPointer < n % 8 then 1 else 0) < s.bufLen)
    (hok : writeNBits s n v = .ok w) :
    (∀ j, j < totalPos s → streamBit w.buf j = streamBit s.buf j) ∧
    (∀ i, i < n → streamBit w.buf (totalPos s + i) = v.testBit (n - 1 - i)) ∧
    (0 < n → w.bitPointer ≠ 0 → ∀ o, w.bitPointer ≤ o → o < 8 →
      streamBit w.buf (8 * w.bufferIndx + o) = false) := by
  rw [writeNBits_spec s n v hroom] at hok
  obtain rfl : writeNBitsAux n s n v 0 = w := by
    injection hok
  obtain ⟨_, _, _, _, hw5, hw6, hw7⟩ := writeNBitsAux_spec n s n v 0 hbp (by omega)
  refine ⟨hw5, ?_, hw7⟩
  intro i hi
  have h := hw6 i (by omega)
  rw [Nat.zero_add] at h
  exact h

/-- Witness for the amended frame effect: writing 7 bits of `85` at bit offset
3 over the byte `0xA0` keeps bit 2 of the stream, stores the value's high bit
at position 3, and zero-fills the trailing bits of the final byte. -/
theorem write_frame_effect_witness :
    streamBit (writeNBitsAux 7 cexS 7 85 0).buf 2 = streamBit cexS.buf 2 ∧
    streamBit (writeNBitsAux 7 cexS 7 85 0).buf (totalPos cexS + 0)
      = Nat.testBit 85 (7 - 1 - 0) ∧
    streamBit (writeNBitsAux 7 cexS 7 85 0).buf
      (8 * (writeNBitsAux 7 cexS 7 85 0).bufferIndx + 5) = false := by
  obtain ⟨h1, h2, h3⟩ := write_frame_effect cexS 7 85 (writeNBitsAux 7 cexS 7 85 0)
    (by decide) (by decide) rfl
  exact ⟨h1 2 (by decide), h2 0 (by decide),
    h3 (by decide) (by decide) 5 (by decide) (by decide)⟩

/-- C5: decoding the header of the input `$EXI` followed by the bits
`10 0 0000 0000` succeeds with `HasCookie = true`, `IsPreviewVersion = false`,
`ExiVersion = 1` and absent options, the body starting at the next bit
(absolute bit position 43); and whenever the two distinguishing bits after the
optional cookie are not `10`, header decoding fails with `InvalidExiHeader`. -/
theorem header_decode_scenario :
    (∃ s', decodeHeader hdrStream
        = .ok ({ HasCookie := true, IsPreviewVersion := false, ExiVersion := 1,
                 OptsPresent := false }, s') ∧ totalPos s' = 43) ∧
    (∀ (hc : Bool) (s : EXIStream) (d : Nat) (s2 : EXIStream),
      readNBits s 2 = .ok (d, s2) → d ≠ 2 →
      decodeAfterCookie hc s = .error .InvalidExiHeader) := by
  constructor
  · exact ⟨_, rfl, rfl⟩
  · intro hc s d s2 hread hd
    simp only [decodeAfterCookie, hread]
    rw [if_neg hd]

/-- Witness for the header scenario: decoding after a cookie over a stream
whose distinguishing bits are `00` fails with `InvalidExiHeader`. -/
theorem header_decode_scenario_witness :
    readNBits badBitsStream 2 = .ok (0, (readNBitsAux 2 badBitsStream 0).2) ∧
    decodeAfterCookie false badBitsStream = .error .InvalidExiHeader :=
  ⟨rfl, header_decode_scenario.2 false badBitsStream 0
    (readNBitsAux 2 badBitsStream 0).2 rfl (by decide)⟩

/-- C6: for every local name holding `n` local values, `bits()` is the
compact-ID width of the count-plus-one quantity — the least `k` with
`n + 1 ≤ 2^k`, i.e. `ceil(log2(n + 1))` — and `bytes()` is the byte width
`bits() / 8 + 1` derived from the same quantity, being `0` exactly when the
local-value list is empty. -/
theorem localName_bits_bytes (ln : LocalName) :
    (ln.LocalValues.length + 1 ≤ 2 ^ ln.bits) ∧
    (∀ k, ln.LocalValues.length + 1 ≤ 2 ^ k → ln.bits ≤ k) ∧
    ln.bytes = (if ln.LocalValues.length = 0 then 0 else ln.bits / 8 + 1) ∧
    (ln.bytes = 0 ↔ ln.LocalValues.length = 0) := by
  have h1 : ln.LocalValues.length + 1 ≤ 2 ^ ln.bits :=
    (Nat.le_pow_iff_clog_le (by omega)).mpr (le_refl _)
  have h2 : ∀ k, ln.LocalValues.length + 1 ≤ 2 ^ k → ln.bits ≤ k := fun k hk =>
    (Nat.le_pow_iff_clog_le (by omega)).mp hk
  have hb : ln.bytes = if ln.LocalValues.length = 0 then 0 else ln.bits / 8 + 1 := by
    rw [LocalName.bytes]
    cases hL : ln.LocalValues with
    | nil => simp [hL]
    | cons a l => simp [hL]
  refine ⟨h1, h2, hb, ?_⟩
  rw [hb]
  by_cases hL : ln.LocalValues.length = 0
  · simp [hL]
  · simp [hL]

/-- Witness for the local-name widths at one local value: one bit, one byte. -/
theorem localName_bits_bytes_witness :
    (exampleLN.LocalValues.length + 1 ≤ 2 ^ exampleLN.bits) ∧
    exampleLN.bits ≤ 1 ∧
    exampleLN.bytes
      = (if exampleLN.LocalValues.length = 0 then 0 else exampleLN.bits / 8 + 1) ∧
    (exampleLN.bytes = 0 ↔ exampleLN.LocalValues.length = 0) :=
  ⟨(localName_bits_bytes exampleLN).1,
   (localName_bits_bytes exampleLN).2.1 1 (by decide),
   (localName_bits_bytes exampleLN).2.2.1,
   (localName_bits_bytes exampleLN).2.2.2⟩

/-- C7 counterexample: for a URI whose local-name partition holds `n = 1`
entry, `getLocalNameLog` returns `0`, which is not `ceil(log2(n + 1))`: a
width `w` equal to `ceil(log2 2)` would have to satisfy `2 ≤ 2 ^ w`. -/
theorem getLocalNameLog_cex :
    (oneLNTable.URIMap.getD 0 default).LNElts = 1 ∧
    oneLNTable.getLocalNameLog 0 = 0 ∧
    ¬ ((oneLNTable.URIMap.getD 0 default).LNElts + 1
        ≤ 2 ^ oneLNTable.getLocalNameLog 0) := by
  have h : oneLNTable.getLocalNameLog 0 = 0 := by
    rw [StringTable.getLocalNameLog,
      show (oneLNTable.URIMap.getD 0 default).LNElts = 1 from rfl]
    exact Nat.clog_one_right 2
  refine ⟨rfl, h, ?_⟩
  rw [h]
  decide

/-- C7 amended: `getLocalNameLog u` returns the compact-ID width of the bare
local-name count `n = LNElts` — the least `k` with `n ≤ 2^k`, i.e.
`ceil(log2 n)` (width 0 both for the empty and for the single-entry
partition) — not `ceil(log2(n + 1))`. -/
theorem getLocalNameLog_spec (st : StringTable) (URI : Nat)
    (h : URI < st.URIMap.length) :
    ((st.URIMap.getD URI default).LNElts ≤ 2 ^ st.getLocalNameLog URI) ∧
    (∀ k, (st.URIMap.getD URI default).LNElts ≤ 2 ^ k →
      st.getLocalNameLog URI ≤ k) :=
  ⟨(Nat.le_pow_iff_clog_le (by omega)).mpr (le_refl _),
   fun k hk => (Nat.le_pow_iff_clog_le (by omega)).mp hk⟩

/-- Witness for the amended local-name width at three entries: width 2. -/
theorem getLocalNameLog_spec_witness :
    ((threeLNTable.URIMap.getD 0 default).LNElts
        ≤ 2 ^ threeLNTable.getLocalNameLog 0) ∧
    threeLNTable.getLocalNameLog 0 ≤ 2 :=
  ⟨(getLocalNameLog_spec threeLNTable 0 (by decide)).1,
   (getLocalNameLog_spec threeLNTable 0 (by decide)).2 2 (by decide)⟩

/-- Each mutating table operation preserves the partition-synchronisation
invariant. -/
theorem applyOp_partitionsInSync (st : StringTable) (op : TableOp)
    (h : partitionsInSync st) : partitionsInSync (applyOp st op) := by
  obtain ⟨h1, h2⟩ := h
  cases op with
  | uri u p =>
    exact ⟨by simp [applyOp, StringTable.addURI, h1], by simp [applyOp, StringTable.addURI, h2]⟩
  | pfx u p =>
    exact ⟨by simp [applyOp, StringTable.addPfx, h1], by simp [applyOp, StringTable.addPfx, h2]⟩
  | localName u n =>
    exact ⟨by simp [applyOp, StringTable.addLocalName, h1],
      by simp [applyOp, StringTable.addLocalName, h2]⟩
  | gvalue v => exact ⟨h1, h2⟩
  | lvalue u l v =>
    exact ⟨by simp [applyOp, StringTable.addLValue, h1],
      by simp [applyOp, StringTable.addLValue, h2]⟩

/-- C8: after setup, every sequence of mutating string-table operations keeps
the URI, Prefix and LocalName partitions at the same number of
sub-partitions; the read accessors do not mutate the table at all. -/
theorem stringTable_partitions_in_sync (ops : List TableOp) :
    partitionsInSync (ops.foldl applyOp setupTable) := by
  have key : ∀ (l : List TableOp) (st : StringTable), partitionsInSync st →
      partitionsInSync (l.foldl applyOp st) := by
    intro l
    induction l with
    | nil => exact fun st h => h
    | cons op l ihl =>
      exact fun st h => ihl (applyOp st op) (applyOp_partitionsInSync st op h)
  exact key ops setupTable ⟨rfl, rfl⟩

/-- C10: a `URIInfo` built with only its name set carries the source's default
member values `PrefixElts = 1` and `LNElts = 0`: a fresh URI's prefix
partition is counted as already holding one logical entry, while its
local-name partition starts empty. -/
theorem uriInfo_defaults (nm : String) :
    ({ Name := nm } : URIInfo).PrefixElts = 1 ∧ ({ Name := nm } : URIInfo).LNElts = 0 :=
  ⟨rfl, rfl⟩

end exi
